import Mathlib

/-!
Verification of the fractal evaluation and matrix-addressing engine of the
Mandel repository (FastLED Mandelbrot/Julia sketches).

The sketches are written in C++ over 32-bit floats.  The embedding below
models the float expressions by exact rational arithmetic: every numeric
literal is taken at its exact decimal value, and the arithmetic operations
are the field operations of the rationals.  Loop counters and pixel indices
are machine integers that stay far from overflow on the relevant ranges, so
they are modelled by natural numbers.  The C library sine is modelled by an
abstract function parameter, so theorems hold for every possible sine
implementation, and concrete evaluations instantiate it at an explicit
function.
-/

namespace Mandel

/-- Matrix width, the constant matrixWidth = 16 shared by all sketches. -/
def matrixWidth : Nat := 16

/-- Matrix height, the constant matrixHeight = 16 shared by all sketches. -/
def matrixHeight : Nat := 16

/-- Default iteration bound, the global maxIterations = 15 of the sketches. -/
def maxIterations : Nat := 15

/-- Default squared escape radius, the global maxCalc = 16.0 of the sketches. -/
def maxCalc : ℚ := 16

/-!
The per-cell escape loop.  Every sketch contains, inside mandel(), the loop

  float a = x; float b = y; int iter = 0;
  while (iter < maxIterations) \x7b
    float aa = a * a;
    float bb = b * b;
    float len = aa + bb;
    if (len > maxCalc) \x7b break; \x7d
    b = 2*a*b + cy;
    a = aa - bb + cx;
    iter++;
  \x7d

where (cx, cy) is the cell coordinate (x, y) in the Mandelbrot sketches and
the global constant (reAl, imAg) in the Julia sketches.  The loop below is
the same computation with the remaining trip count M - iter as structural
fuel: iter < maxIterations holds exactly when the fuel is nonzero, and the
returned count of executed updates equals the final value of iter when the
loop is entered with iter = 0.
-/

/-- Escape loop of mandel(): from state (a, b) with the given fuel, return
the number of recurrence updates performed together with the final state. -/
def mandelLoop (mc cx cy : ℚ) : ℚ → ℚ → Nat → Nat × ℚ × ℚ
  | a, b, 0 => (0, a, b)
  | a, b, fuel + 1 =>
    let aa := a * a
    let bb := b * b
    let len := aa + bb
    if len > mc then (0, a, b)
    else
      let r := mandelLoop mc cx cy (aa - bb + cx) (2 * a * b + cy) fuel
      (r.1 + 1, r.2)

/-- Per-cell escape-time evaluator: the iteration count that mandel() stores
for a cell, with iteration bound M, squared escape radius mc, additive
constant (cx, cy) and starting point (a, b). -/
def mandel (M : Nat) (mc cx cy a b : ℚ) : Nat :=
  (mandelLoop mc cx cy a b M).1

/-- Final state of the escape loop for a cell, used to count the updates the
loop performs. -/
def mandelState (M : Nat) (mc cx cy a b : ℚ) : ℚ × ℚ :=
  (mandelLoop mc cx cy a b M).2

/-- Exact orbit of the quadratic recurrence: k applications of
(a, b) to (a*a - b*b + cx, 2*a*b + cy), the update of the escape loop. -/
def orbit (cx cy : ℚ) : ℚ → ℚ → Nat → ℚ × ℚ
  | a, b, 0 => (a, b)
  | a, b, k + 1 => orbit cx cy (a * a - b * b + cx) (2 * a * b + cy) k

/-- Squared magnitude of a point of the plane, the quantity len = aa + bb
tested by the escape loop. -/
def normSq (p : ℚ × ℚ) : ℚ := p.1 * p.1 + p.2 * p.2

/-- Coordinate mapper XY() of the sketches.  The serpentine flag is the
compile-time constant matrixSerpentineLayout; the sketches set it to true.
The test y & 0x01 selects odd rows. -/
def XY (serpentine : Bool) (width : Nat) (x y : Nat) : Nat :=
  if serpentine = false then
    y * width + x
  else
    if y &&& 1 = 1 then
      let reverseX := (width - 1) - x
      y * width + reverseX
    else
      y * width + x

/-- Inverse of the serpentine mapping at width 16: recover the grid cell
from a linear index.  Used to certify that the mapping is a bijection. -/
def XYinv (n : Nat) : Nat × Nat :=
  let y := n / 16
  let r := n % 16
  if y % 2 = 1 then (15 - r, y) else (r, y)

/-- Complex window produced by resize(): bounds of the viewing window and the
per-axis step sizes dx, dy. -/
structure Window where
  xmin : ℚ
  xmax : ℚ
  ymin : ℚ
  ymax : ℚ
  dx : ℚ
  dy : ℚ

/-- Zoom calibration constant zoomAdj = .0016 of the zooming sketches. -/
def zoomAdj : ℚ := 0.0016

/-- Axis calibration constant xadj = 0 of the zooming sketches. -/
def xadj : ℚ := 0

/-- Axis calibration constant yadj = .001 of the zooming sketches. -/
def yadj : ℚ := 0.001

/-- Window computation of resize() in the Mandelbrot sketches: bounds are
reAl and imAg offset by 1/zoOm/zoomAdj (plus the per-axis calibration
constants), and dx, dy divide the extent by the matrix dimensions. -/
def resize (zoOm reAl imAg : ℚ) : Window :=
  let xmin := reAl - 1 / zoOm / zoomAdj + xadj
  let xmax := reAl + 1 / zoOm / zoomAdj + xadj
  let ymin := imAg - 1 / zoOm / zoomAdj + yadj
  let ymax := imAg + 1 / zoOm / zoomAdj + yadj
  { xmin := xmin, xmax := xmax, ymin := ymin, ymax := ymax,
    dx := (xmax - xmin) / (matrixWidth : ℚ),
    dy := (ymax - ymin) / (matrixHeight : ℚ) }

/-- Window of the Mandelbrot-minimal sketch: resize() there reads the static
globals reAl = -.5, imAg = 0.1, zoOm = 550. -/
def resizeMinimal : Window := resize 550 (-0.5) 0.1

/-- Animated zoom factor of the zooming Mandelbrot sketch:
zoOm = 5000. * abs(sin(millis()/2000.)) + 200.  The C library sine is the
abstract parameter s. -/
def zoOmAnimated (s : ℚ → ℚ) (t : ℚ) : ℚ :=
  5000 * |s (t / 2000)| + 200

/-- Window of the zooming Mandelbrot sketch at time t: the animated zoom
factor with the fixed center reAl = -0.94299, imAg = 0.3162. -/
def resizeAnimated (s : ℚ → ℚ) (t : ℚ) : Window :=
  resize (zoOmAnimated s t) (-0.94299) 0.3162

/-- Per-frame state computed by resize() in the Julia sketches: the Julia
constant (reAl, imAg) and the viewing window. -/
structure JuliaFrame where
  reAl : ℚ
  imAg : ℚ
  win : Window

/-- Resize() of the Julia-palette sketch at time t: the base point
(-0.94299, 0.3162) perturbed by two sines becomes the Julia constant, and
the window is the constant box from -.5 to .5 on both axes. -/
def resizeJuliaPalette (s : ℚ → ℚ) (t : ℚ) : JuliaFrame :=
  let reAl := -0.94299 + s (t / 305) / 20
  let imAg := 0.3162 + s (t / 405) / 20
  let xmin : ℚ := -0.5
  let xmax : ℚ := 0.5
  let ymin : ℚ := -0.5
  let ymax : ℚ := 0.5
  { reAl := reAl, imAg := imAg,
    win := { xmin := xmin, xmax := xmax, ymin := ymin, ymax := ymax,
             dx := (xmax - xmin) / (matrixWidth : ℚ),
             dy := (ymax - ymin) / (matrixHeight : ℚ) } }

/-- Resize() of the minimal Julia sketch at time t: the same perturbed base
point as the Julia constant, and the constant box from -1.2 to 1.2 in x and
from -.8 to 1. in y. -/
def resizeJuliaMinimal (s : ℚ → ℚ) (t : ℚ) : JuliaFrame :=
  let reAl := -0.94299 + s (t / 305) / 20
  let imAg := 0.3162 + s (t / 405) / 20
  let xmin : ℚ := -1.2
  let xmax : ℚ := 1.2
  let ymin : ℚ := -0.8
  let ymax : ℚ := 1
  { reAl := reAl, imAg := imAg,
    win := { xmin := xmin, xmax := xmax, ymin := ymin, ymax := ymax,
             dx := (xmax - xmin) / (matrixWidth : ℚ),
             dy := (ymax - ymin) / (matrixHeight : ℚ) } }

/-- RGB color value with three 8-bit channels. -/
structure CRGB where
  r : Nat
  g : Nat
  b : Nat
  deriving DecidableEq

/-- The color CRGB Black, all channels zero. -/
def CRGB.Black : CRGB := ⟨0, 0, 0⟩

/-- Color selection of mandel() in the palette sketches: black when the
count reached maxIterations, otherwise ColorFromPalette at index
iter*255/maxIterations.  The palette lookup is the abstract parameter
palette. -/
def colorForPalette (palette : Nat → CRGB) (M iter : Nat) : CRGB :=
  if iter = M then CRGB.Black else palette (iter * 255 / M)

/-- Color selection of mandel() in the direct-hue sketches: black when the
count reached maxIterations, otherwise CHSV(iter*255/maxIterations, 255,
255).  The hue/saturation/value conversion is the abstract parameter hsv. -/
def colorForHSV (hsv : Nat → Nat → Nat → CRGB) (M iter : Nat) : CRGB :=
  if iter = M then CRGB.Black else hsv (iter * 255 / M) 255 255

/-! Equations of the escape loop and of the orbit. -/

theorem mandelLoop_zero (mc cx cy a b : ℚ) : mandelLoop mc cx cy a b 0 = (0, a, b) := rfl

theorem mandelLoop_succ (mc cx cy a b : ℚ) (fuel : Nat) :
    mandelLoop mc cx cy a b (fuel + 1) =
      if a * a + b * b > mc then (0, a, b)
      else ((mandelLoop mc cx cy (a * a - b * b + cx) (2 * a * b + cy) fuel).1 + 1,
            (mandelLoop mc cx cy (a * a - b * b + cx) (2 * a * b + cy) fuel).2) := rfl

theorem orbit_zero (cx cy a b : ℚ) : orbit cx cy a b 0 = (a, b) := rfl

theorem orbit_succ (cx cy a b : ℚ) (k : Nat) :
    orbit cx cy a b (k + 1) = orbit cx cy (a * a - b * b + cx) (2 * a * b + cy) k := rfl

theorem orbit_step_last (cx cy : ℚ) : ∀ (k : Nat) (a b : ℚ),
    orbit cx cy a b (k + 1) =
      ((orbit cx cy a b k).1 * (orbit cx cy a b k).1 -
        (orbit cx cy a b k).2 * (orbit cx cy a b k).2 + cx,
       2 * (orbit cx cy a b k).1 * (orbit cx cy a b k).2 + cy) := by
  intro k
  induction k with
  | zero => intro a b; rfl
  | succ k ih =>
    intro a b
    rw [orbit_succ, ih, orbit_succ]

/-! Behavior of the escape loop: the count of updates is bounded by the
fuel, reaches the fuel exactly when no tested point escapes, is cut off at
any escaping orbit position, and the final state is the orbit position at
the returned count. -/

theorem mandelLoop_count_le (mc cx cy : ℚ) :
    ∀ (n : Nat) (a b : ℚ), (mandelLoop mc cx cy a b n).1 ≤ n := by
  intro n
  induction n with
  | zero => intro a b; simp [mandelLoop_zero]
  | succ n ih =>
    intro a b
    rw [mandelLoop_succ]
    split
    · simp
    · simpa using Nat.succ_le_succ (ih _ _)

theorem mandelLoop_count_eq_iff (mc cx cy : ℚ) :
    ∀ (n : Nat) (a b : ℚ),
      (mandelLoop mc cx cy a b n).1 = n ↔ ∀ k < n, normSq (orbit cx cy a b k) ≤ mc := by
  intro n
  induction n with
  | zero => intro a b; simp [mandelLoop_zero]
  | succ n ih =>
    intro a b
    rw [mandelLoop_succ]
    by_cases h : a * a + b * b > mc
    · rw [if_pos h]
      simp only [Prod.fst]
      constructor
      · intro h0
        omega
      · intro hall
        have h0 := hall 0 (Nat.succ_pos n)
        rw [orbit_zero] at h0
        simp only [normSq] at h0
        exact absurd h0 (by linarith)
    · rw [if_neg h]
      simp only [Prod.fst]
      constructor
      · intro h1 k hk
        cases k with
        | zero =>
          rw [orbit_zero]
          simp only [normSq]
          linarith [not_lt.mp h]
        | succ k =>
          rw [orbit_succ]
          exact (ih _ _).mp (by omega) k (by omega)
      · intro hall
        have hrec : ∀ k < n,
            normSq (orbit cx cy (a * a - b * b + cx) (2 * a * b + cy) k) ≤ mc := by
          intro k hk
          have := hall (k + 1) (by omega)
          rwa [orbit_succ] at this
        rw [(ih _ _).mpr hrec]

theorem mandelLoop_state (mc cx cy : ℚ) :
    ∀ (n : Nat) (a b : ℚ),
      (mandelLoop mc cx cy a b n).2 = orbit cx cy a b (mandelLoop mc cx cy a b n).1 := by
  intro n
  induction n with
  | zero => intro a b; rfl
  | succ n ih =>
    intro a b
    rw [mandelLoop_succ]
    by_cases h : a * a + b * b > mc
    · rw [if_pos h]
      rfl
    · rw [if_neg h]
      simp only [Prod.fst, Prod.snd]
      rw [ih, orbit_succ]

theorem mandelLoop_count_le_escape (mc cx cy : ℚ) :
    ∀ (k : Nat) (a b : ℚ) (n : Nat),
      mc < normSq (orbit cx cy a b k) → (mandelLoop mc cx cy a b n).1 ≤ k := by
  intro k
  induction k with
  | zero =>
    intro a b n h
    rw [orbit_zero] at h
    simp only [normSq] at h
    cases n with
    | zero => simp [mandelLoop_zero]
    | succ n =>
      rw [mandelLoop_succ, if_pos (by linarith)]
  | succ k ih =>
    intro a b n h
    cases n with
    | zero => simp [mandelLoop_zero]
    | succ n =>
      rw [mandelLoop_succ]
      split
      · simp
      · rw [orbit_succ] at h
        simpa using Nat.succ_le_succ (ih _ _ n h)

/-- C1: the per-cell evaluator returns a count in the range from 0 to
maxIterations, and the count equals maxIterations exactly when none of the
orbit points tested by the bounded loop exceeded the squared escape radius
(the cell is classified as inside the set).  The lower bound 0 is implicit
in the natural-number result type. -/
theorem mandel_count_range_and_inset (M : Nat) (mc cx cy a b : ℚ) :
    mandel M mc cx cy a b ≤ M ∧
      (mandel M mc cx cy a b = M ↔ ∀ k < M, normSq (orbit cx cy a b k) ≤ mc) :=
  ⟨mandelLoop_count_le mc cx cy M a b, mandelLoop_count_eq_iff mc cx cy M a b⟩

/-- C4: for every squared escape radius, constant and starting point, the
escape loop terminates (it is a total function) after at most max_iterations
recurrence updates: the returned count is bounded by the iteration budget
and the final loop state is the orbit position after exactly that many
updates.  The evaluator returns a plain number, so it has no error
conditions. -/
theorem mandel_terminates_within_bound (M : Nat) (mc cx cy a b : ℚ) :
    mandel M mc cx cy a b ≤ M ∧
      mandelState M mc cx cy a b = orbit cx cy a b (mandel M mc cx cy a b) :=
  ⟨mandelLoop_count_le mc cx cy M a b, mandelLoop_state mc cx cy M a b⟩

/-- C10: the escape test runs before each recurrence update, so a starting
point already beyond the squared escape radius yields count 0 with the
state untouched, for any positive iteration budget. -/
theorem mandel_zero_when_start_escaped (M : Nat) (mc cx cy a b : ℚ)
    (hM : 1 ≤ M) (h : a * a + b * b > mc) :
    mandel M mc cx cy a b = 0 ∧ mandelState M mc cx cy a b = (a, b) := by
  obtain ⟨m, rfl⟩ : ∃ m, M = m + 1 := ⟨M - 1, by omega⟩
  unfold mandel mandelState
  rw [mandelLoop_succ, if_pos h]
  exact ⟨rfl, rfl⟩

/-- Witness for C10 at the concrete input M = 15, mc = 16, c = (0, 0),
start (5, 0). -/
theorem mandel_zero_when_start_escaped_witness :
    1 ≤ 15 ∧ (5 : ℚ) * 5 + 0 * 0 > 16 ∧
      (mandel 15 16 0 0 5 0 = 0 ∧ mandelState 15 16 0 0 5 0 = (5, 0)) :=
  ⟨by norm_num, by norm_num,
    mandel_zero_when_start_escaped 15 16 0 0 5 0 (by norm_num) (by norm_num)⟩

/-! The coordinate mapper. -/

theorem XYinv_XY (x y : Nat) (hx : x < 16) :
    XYinv (XY true 16 x y) = (x, y) := by
  simp only [XY, XYinv, Nat.and_one_is_mod]
  split_ifs <;> simp_all [Prod.ext_iff] <;> omega

theorem XY_XYinv (n : Nat) (hn : n < 256) :
    XY true 16 (XYinv n).1 (XYinv n).2 = n ∧ (XYinv n).1 < 16 ∧ (XYinv n).2 < 16 := by
  simp only [XY, XYinv, Nat.and_one_is_mod]
  split_ifs <;> simp_all <;> omega

/-- C2: without serpentine the mapper is row-major; with serpentine, odd
rows are reversed and even rows are forward, so row parity alone chooses
the direction; and with width 4, row 0 maps to 0, 1, 2, 3 while row 1 maps
to 7, 6, 5, 4. -/
theorem XY_serpentine_mapping (w x y : Nat) (hx : x < w) :
    XY false w x y = y * w + x ∧
      (y % 2 = 1 → XY true w x y = y * w + (w - 1 - x)) ∧
      (y % 2 = 0 → XY true w x y = y * w + x) ∧
      (List.range 4).map (fun i => XY true 4 i 0) = [0, 1, 2, 3] ∧
      (List.range 4).map (fun i => XY true 4 i 1) = [7, 6, 5, 4] := by
  refine ⟨rfl, ?_, ?_, by decide, by decide⟩
  · intro hy
    simp [XY, Nat.and_one_is_mod, hy]
  · intro hy
    simp [XY, Nat.and_one_is_mod, hy]

/-- Witness for C2 at the concrete input w = 16, x = 2, y = 3. -/
theorem XY_serpentine_mapping_witness :
    2 < 16 ∧
      (XY false 16 2 3 = 3 * 16 + 2 ∧
        (3 % 2 = 1 → XY true 16 2 3 = 3 * 16 + (16 - 1 - 2)) ∧
        (3 % 2 = 0 → XY true 16 2 3 = 3 * 16 + 2) ∧
        (List.range 4).map (fun i => XY true 4 i 0) = [0, 1, 2, 3] ∧
        (List.range 4).map (fun i => XY true 4 i 1) = [7, 6, 5, 4]) :=
  ⟨by decide, XY_serpentine_mapping 16 2 3 (by decide)⟩

/-- C3: with width = height = 16 and serpentine enabled, the mapper is a
bijection from the 16 by 16 grid onto the index range below 256: every
linear index is produced by exactly one grid cell. -/
theorem XY_serpentine_bijection :
    ∀ n : Fin 256, ∃! p : Fin 16 × Fin 16, XY true 16 p.1.val p.2.val = n.val := by
  intro n
  obtain ⟨hXY, h1, h2⟩ := XY_XYinv n.val n.isLt
  refine ⟨(⟨(XYinv n.val).1, h1⟩, ⟨(XYinv n.val).2, h2⟩), hXY, ?_⟩
  rintro ⟨⟨qx, hqx⟩, ⟨qy, hqy⟩⟩ hq
  have hinv := XYinv_XY qx qy hqx
  rw [hq] at hinv
  rw [Prod.ext_iff] at hinv ⊢
  simp only [Fin.mk.injEq] at *
  exact ⟨hinv.1.symm, hinv.2.symm⟩

/-! The window animator. -/

/-- C7: every window produced by resize() has increasing bounds on both
axes and step sizes dx, dy equal to the extent divided by the matrix
dimension; for the zooming formula this holds whenever the zoom factor is
strictly positive, and it holds for the static window of the
Mandelbrot-minimal sketch. -/
theorem resize_window_invariants :
    (∀ zoOm reAl imAg : ℚ, 0 < zoOm →
      (resize zoOm reAl imAg).xmin < (resize zoOm reAl imAg).xmax ∧
        (resize zoOm reAl imAg).ymin < (resize zoOm reAl imAg).ymax ∧
        (resize zoOm reAl imAg).dx =
          ((resize zoOm reAl imAg).xmax - (resize zoOm reAl imAg).xmin) / (matrixWidth : ℚ) ∧
        (resize zoOm reAl imAg).dy =
          ((resize zoOm reAl imAg).ymax - (resize zoOm reAl imAg).ymin) / (matrixHeight : ℚ)) ∧
      (resizeMinimal.xmin < resizeMinimal.xmax ∧
        resizeMinimal.ymin < resizeMinimal.ymax ∧
        resizeMinimal.dx = (resizeMinimal.xmax - resizeMinimal.xmin) / (matrixWidth : ℚ) ∧
        resizeMinimal.dy = (resizeMinimal.ymax - resizeMinimal.ymin) / (matrixHeight : ℚ)) := by
  have main : ∀ zoOm reAl imAg : ℚ, 0 < zoOm →
      (resize zoOm reAl imAg).xmin < (resize zoOm reAl imAg).xmax ∧
        (resize zoOm reAl imAg).ymin < (resize zoOm reAl imAg).ymax ∧
        (resize zoOm reAl imAg).dx =
          ((resize zoOm reAl imAg).xmax - (resize zoOm reAl imAg).xmin) / (matrixWidth : ℚ) ∧
        (resize zoOm reAl imAg).dy =
          ((resize zoOm reAl imAg).ymax - (resize zoOm reAl imAg).ymin) / (matrixHeight : ℚ) := by
    intro zoOm reAl imAg hz
    have hhalf : 0 < 1 / zoOm / zoomAdj := by
      apply div_pos (by positivity)
      norm_num [zoomAdj]
    refine ⟨?_, ?_, rfl, rfl⟩ <;>
      · simp only [resize]
        linarith
  exact ⟨main, main 550 (-0.5) 0.1 (by norm_num)⟩

/-- Witness for C7 at the concrete zoom 550 with center (-0.5, 0.1). -/
theorem resize_window_invariants_witness :
    0 < (550 : ℚ) ∧
      ((resize 550 (-0.5) 0.1).xmin < (resize 550 (-0.5) 0.1).xmax ∧
        (resize 550 (-0.5) 0.1).ymin < (resize 550 (-0.5) 0.1).ymax ∧
        (resize 550 (-0.5) 0.1).dx =
          ((resize 550 (-0.5) 0.1).xmax - (resize 550 (-0.5) 0.1).xmin) / (matrixWidth : ℚ) ∧
        (resize 550 (-0.5) 0.1).dy =
          ((resize 550 (-0.5) 0.1).ymax - (resize 550 (-0.5) 0.1).ymin) / (matrixHeight : ℚ)) :=
  ⟨by norm_num, resize_window_invariants.1 550 (-0.5) 0.1 (by norm_num)⟩

/-- C8: the animated zoom factor of the zooming Mandelbrot sketch is always
at least 200, hence strictly positive, so neither divisor in the half-width
computation 1/zoOm/zoomAdj is zero, for every sine implementation and every
time. -/
theorem zoom_stays_positive (s : ℚ → ℚ) (t : ℚ) :
    200 ≤ zoOmAnimated s t ∧ 0 < zoOmAnimated s t ∧
      zoOmAnimated s t ≠ 0 ∧ zoomAdj ≠ 0 := by
  have h : 0 ≤ |s (t / 2000)| := abs_nonneg _
  have h200 : 200 ≤ zoOmAnimated s t := by
    unfold zoOmAnimated
    nlinarith
  exact ⟨h200, by linarith, by intro h0; rw [h0] at h200; norm_num at h200,
    by norm_num [zoomAdj]⟩

/-- C9: both color selections return pure black exactly at a count of
maxIterations, for every palette and hue conversion, and any smaller count
is colored through the truncated index iter*255/maxIterations. -/
theorem color_mapper_black_and_index (palette : Nat → CRGB)
    (hsv : Nat → Nat → Nat → CRGB) (M iter : Nat) (h : iter < M) :
    colorForPalette palette M M = CRGB.Black ∧
      colorForHSV hsv M M = CRGB.Black ∧
      colorForPalette palette M iter = palette (iter * 255 / M) ∧
      colorForHSV hsv M iter = hsv (iter * 255 / M) 255 255 := by
  have hne : iter ≠ M := Nat.ne_of_lt h
  simp [colorForPalette, colorForHSV, hne]

/-- Witness for C9 with a constant palette, a constant hue conversion,
M = 15 and iter = 7. -/
theorem color_mapper_black_and_index_witness :
    7 < 15 ∧
      (colorForPalette (fun _ => ⟨9, 9, 9⟩) 15 15 = CRGB.Black ∧
        colorForHSV (fun _ _ _ => ⟨8, 8, 8⟩) 15 15 = CRGB.Black ∧
        colorForPalette (fun _ => ⟨9, 9, 9⟩) 15 7 = (fun _ => (⟨9, 9, 9⟩ : CRGB)) (7 * 255 / 15) ∧
        colorForHSV (fun _ _ _ => ⟨8, 8, 8⟩) 15 7 =
          (fun _ _ _ => (⟨8, 8, 8⟩ : CRGB)) (7 * 255 / 15) 255 255) :=
  ⟨by decide,
    color_mapper_black_and_index (fun _ => ⟨9, 9, 9⟩) (fun _ _ _ => ⟨8, 8, 8⟩) 15 7 (by decide)⟩

/-- Counterexample to C5 as stated: at time 0 with a sine returning 0 at
argument 0 (the value the C library sine takes there), the window of the
Julia-palette resize() is not centered at the perturbed point: the x bounds
sum to 0 while twice the perturbed real part is -1.88598.  So the bounds
are not center plus or minus half-extent for the sinusoidally perturbed
center, whatever the half-extent. -/
theorem resize_julia_center_counterexample :
    (resizeJuliaPalette (fun _ => 0) 0).win.xmin + (resizeJuliaPalette (fun _ => 0) 0).win.xmax ≠
      2 * (resizeJuliaPalette (fun _ => 0) 0).reAl := by
  norm_num [resizeJuliaPalette]

/-- C5 amended: in the fixed-center Julia-style variants, resize() perturbs
the base point (-0.94299, 0.3162) sinusoidally over time and stores it as
the Julia constant, while the window bounds are constants independent of
time, of zoom and of the perturbed point; the bounds are expressible as a
fixed center plus or minus a fixed half-extent per axis (center (0, 0) with
half-extent 1/2 for Julia-palette; center (0, 1/10) with half-extents 6/5
and 9/10 for the minimal Julia sketch). -/
theorem resize_julia_fixed_window (s : ℚ → ℚ) (t : ℚ) :
    (resizeJuliaPalette s t).reAl = -0.94299 + s (t / 305) / 20 ∧
      (resizeJuliaPalette s t).imAg = 0.3162 + s (t / 405) / 20 ∧
      (resizeJuliaPalette s t).win.xmin = 0 - 1 / 2 ∧
      (resizeJuliaPalette s t).win.xmax = 0 + 1 / 2 ∧
      (resizeJuliaPalette s t).win.ymin = 0 - 1 / 2 ∧
      (resizeJuliaPalette s t).win.ymax = 0 + 1 / 2 ∧
      (resizeJuliaMinimal s t).reAl = -0.94299 + s (t / 305) / 20 ∧
      (resizeJuliaMinimal s t).imAg = 0.3162 + s (t / 405) / 20 ∧
      (resizeJuliaMinimal s t).win.xmin = 0 - 6 / 5 ∧
      (resizeJuliaMinimal s t).win.xmax = 0 + 6 / 5 ∧
      (resizeJuliaMinimal s t).win.ymin = 1 / 10 - 9 / 10 ∧
      (resizeJuliaMinimal s t).win.ymax = 1 / 10 + 9 / 10 := by
  refine ⟨rfl, rfl, ?_, ?_, ?_, ?_, rfl, rfl, ?_, ?_, ?_, ?_⟩ <;>
    norm_num [resizeJuliaPalette, resizeJuliaMinimal]

/-! Escape behavior for constants outside the circle of radius 2.  The
squared magnitude of the orbit of c grows at least geometrically once the
squared magnitude of c exceeds 4, so the orbit eventually exceeds any
escape radius; but for constants just outside the circle the growth is too
slow for the default budget of 15 iterations, which the orbit of
c = (-2 - 2^-33, 0) shows. -/

theorem step_normSq_lower (cx cy a b : ℚ) :
    (a * a + b * b) * (a * a + b * b) / 2 - (cx * cx + cy * cy) ≤
      (a * a - b * b + cx) * (a * a - b * b + cx) + (2 * a * b + cy) * (2 * a * b + cy) := by
  nlinarith [sq_nonneg ((a * a - b * b) * cy - 2 * a * b * cx),
    sq_nonneg ((a * a + b * b) * (a * a + b * b) / 2 - 2 * (cx * cx + cy * cy)),
    sq_nonneg ((a * a + b * b) * (a * a + b * b) / 2 + 2 * (cx * cx + cy * cy) +
      2 * ((a * a - b * b) * cx + 2 * a * b * cy)),
    sq_nonneg a, sq_nonneg b, sq_nonneg cx, sq_nonneg cy,
    sq_nonneg (a * a + b * b), sq_nonneg (cx + cy), sq_nonneg (cx - cy)]

theorem orbit_normSq_growth (cx cy : ℚ) (h : 4 < cx * cx + cy * cy) :
    ∀ n, (cx * cx + cy * cy) * ((cx * cx + cy * cy) / 2 - 1) ^ n ≤
      normSq (orbit cx cy cx cy n) := by
  intro n
  induction n with
  | zero =>
    rw [orbit_zero]
    simp [normSq]
  | succ n ih =>
    have hq : (0:ℚ) < cx * cx + cy * cy := by linarith
    have hrpow : (1:ℚ) ≤ ((cx * cx + cy * cy) / 2 - 1) ^ n :=
      one_le_pow₀ (by linarith)
    have hs : cx * cx + cy * cy ≤ normSq (orbit cx cy cx cy n) := by
      calc cx * cx + cy * cy
          ≤ (cx * cx + cy * cy) * ((cx * cx + cy * cy) / 2 - 1) ^ n := by nlinarith
        _ ≤ normSq (orbit cx cy cx cy n) := ih
    rw [orbit_step_last]
    have hstep := step_normSq_lower cx cy (orbit cx cy cx cy n).1 (orbit cx cy cx cy n).2
    simp only [normSq] at ih hs ⊢
    set P := (orbit cx cy cx cy n).1
    set Q := (orbit cx cy cx cy n).2
    have key : (P * P + Q * Q) * ((cx * cx + cy * cy) / 2 - 1) ≤
        (P * P + Q * Q) * (P * P + Q * Q) / 2 - (cx * cx + cy * cy) := by
      nlinarith [hs, hq]
    calc (cx * cx + cy * cy) * ((cx * cx + cy * cy) / 2 - 1) ^ (n + 1)
        = ((cx * cx + cy * cy) * ((cx * cx + cy * cy) / 2 - 1) ^ n) *
            ((cx * cx + cy * cy) / 2 - 1) := by ring
      _ ≤ (P * P + Q * Q) * ((cx * cx + cy * cy) / 2 - 1) :=
          mul_le_mul_of_nonneg_right ih (by linarith)
      _ ≤ (P * P + Q * Q) * (P * P + Q * Q) / 2 - (cx * cx + cy * cy) := key
      _ ≤ _ := hstep

theorem orbit_escapes (cx cy : ℚ) (h : 4 < cx * cx + cy * cy) :
    ∃ n, 16 < normSq (orbit cx cy cx cy n) := by
  have hr1 : (0:ℚ) < (cx * cx + cy * cy) / 2 - 1 - 1 := by linarith
  obtain ⟨n, hn⟩ := exists_nat_ge ((3:ℚ) / ((cx * cx + cy * cy) / 2 - 1 - 1))
  refine ⟨n, ?_⟩
  have hb : 1 + (n:ℚ) * ((cx * cx + cy * cy) / 2 - 1 - 1) ≤
      ((cx * cx + cy * cy) / 2 - 1) ^ n := by
    have hber := one_add_mul_le_pow
      (a := (cx * cx + cy * cy) / 2 - 1 - 1) (by linarith) n
    calc 1 + (n:ℚ) * ((cx * cx + cy * cy) / 2 - 1 - 1)
        ≤ (1 + ((cx * cx + cy * cy) / 2 - 1 - 1)) ^ n := hber
      _ = ((cx * cx + cy * cy) / 2 - 1) ^ n := by ring_nf
  have h3 : (3:ℚ) ≤ (n:ℚ) * ((cx * cx + cy * cy) / 2 - 1 - 1) := by
    rw [div_le_iff₀ hr1] at hn
    linarith
  have h4 : (4:ℚ) ≤ ((cx * cx + cy * cy) / 2 - 1) ^ n := by linarith
  have hg := orbit_normSq_growth cx cy h n
  nlinarith [hg, h4]

theorem cex_orbit_bound (ε : ℚ) (hε : 0 < ε) (hε1 : 5 ^ 14 * ε ≤ 1) :
    ∀ n, 1 ≤ n → n ≤ 14 →
      (orbit (-2 - ε) 0 (-2 - ε) 0 n).2 = 0 ∧
        2 + ε ≤ (orbit (-2 - ε) 0 (-2 - ε) 0 n).1 ∧
        (orbit (-2 - ε) 0 (-2 - ε) 0 n).1 ≤ 2 + 5 ^ n * ε := by
  have hεle : ε ≤ 1 := by
    norm_num at hε1
    linarith
  intro n
  induction n with
  | zero => intro h1 _; exact absurd h1 (by norm_num)
  | succ n ih =>
    intro _ h2
    by_cases hn : n = 0
    · subst hn
      rw [orbit_succ, orbit_zero]
      refine ⟨by ring, ?_, ?_⟩
      · show 2 + ε ≤ (-2 - ε) * (-2 - ε) - 0 * 0 + (-2 - ε)
        nlinarith
      · show (-2 - ε) * (-2 - ε) - 0 * 0 + (-2 - ε) ≤ 2 + 5 ^ 1 * ε
        nlinarith
    · have hn1 : 1 ≤ n := Nat.one_le_iff_ne_zero.mpr hn
      obtain ⟨hQ, hlo, hhi⟩ := ih hn1 (by omega)
      have hK : 5 ^ n * ε ≤ 1 := by
        have hpow : (5:ℚ) ^ n ≤ 5 ^ 14 := by
          apply pow_le_pow_right₀ (by norm_num)
          omega
        nlinarith
      rw [orbit_step_last, hQ]
      refine ⟨by ring, ?_, ?_⟩
      · show 2 + ε ≤ (orbit (-2 - ε) 0 (-2 - ε) 0 n).1 * (orbit (-2 - ε) 0 (-2 - ε) 0 n).1 -
          0 * 0 + (-2 - ε)
        nlinarith
      · show (orbit (-2 - ε) 0 (-2 - ε) 0 n).1 * (orbit (-2 - ε) 0 (-2 - ε) 0 n).1 -
          0 * 0 + (-2 - ε) ≤ 2 + 5 ^ (n + 1) * ε
        have hpsucc : (5:ℚ) ^ (n + 1) = 5 * 5 ^ n := by ring
        rw [hpsucc]
        nlinarith [hhi, hlo, hK, hε, sq_nonneg (5 ^ n * ε)]

theorem cex_checks :
    ∀ k < 15, normSq (orbit (-2 - 1 / 2 ^ 33) 0 (-2 - 1 / 2 ^ 33) 0 k) ≤ 16 := by
  intro k hk
  by_cases hk0 : k = 0
  · subst hk0
    rw [orbit_zero]
    show (-2 - 1 / 2 ^ 33 : ℚ) * (-2 - 1 / 2 ^ 33) + 0 * 0 ≤ 16
    norm_num
  · have h1 : 1 ≤ k := Nat.one_le_iff_ne_zero.mpr hk0
    obtain ⟨hQ, hlo, hhi⟩ :=
      cex_orbit_bound (1 / 2 ^ 33) (by norm_num) (by norm_num) k h1 (by omega)
    have hKk : (5:ℚ) ^ k * (1 / 2 ^ 33) ≤ 1 := by
      have hpow : (5:ℚ) ^ k ≤ 5 ^ 14 := pow_le_pow_right₀ (by norm_num) (by omega)
      nlinarith
    simp only [normSq]
    rw [hQ]
    nlinarith [hlo, hhi, hKk]

/-- Counterexample to C6 as stated: the constant c = (-2 - 2^-33, 0) has
squared magnitude above 4, hence magnitude above 2, yet with the default
budget maxIterations = 15 and squared escape radius maxCalc = 16 the
evaluator returns 15 = maxIterations, because the orbit needs more than 15
iterations to leave the escape radius.  So a magnitude beyond 2 does not
force iter < max_iterations at the default configuration. -/
theorem mandel_inset_beyond_radius_two :
    4 < normSq (-2 - 1 / 2 ^ 33, 0) ∧
      mandel maxIterations maxCalc (-2 - 1 / 2 ^ 33) 0 (-2 - 1 / 2 ^ 33) 0 = maxIterations := by
  constructor
  · show (4:ℚ) < (-2 - 1 / 2 ^ 33) * (-2 - 1 / 2 ^ 33) + 0 * 0
    norm_num
  · show (mandelLoop 16 (-2 - 1 / 2 ^ 33) 0 (-2 - 1 / 2 ^ 33) 0 15).1 = 15
    exact (mandelLoop_count_eq_iff 16 (-2 - 1 / 2 ^ 33) 0 15 (-2 - 1 / 2 ^ 33) 0).mpr cex_checks

/-- C6 amended: a constant c with squared magnitude above 4 (magnitude
above 2) always escapes eventually: some iteration budget makes the
evaluator report a count below the budget.  The default budget of 15 is
not always enough, but at the concrete cell c = (3, 0), used as starting
point and constant with squared escape radius 16, the evaluator with the
default budget returns a count of at most 1. -/
theorem mandel_escape_for_large_c (cx cy : ℚ) (h : 4 < cx * cx + cy * cy) :
    (∃ M, 0 < M ∧ mandel M 16 cx cy cx cy < M) ∧ mandel 15 16 3 0 3 0 ≤ 1 := by
  constructor
  · obtain ⟨n, hn⟩ := orbit_escapes cx cy h
    refine ⟨n + 1, Nat.succ_pos n, ?_⟩
    have hle := mandelLoop_count_le_escape 16 cx cy n cx cy (n + 1) hn
    unfold mandel
    omega
  · have h1 : (16:ℚ) < normSq (orbit 3 0 3 0 1) := by
      rw [orbit_succ, orbit_zero]
      show (16:ℚ) < (3 * 3 - 0 * 0 + 3) * (3 * 3 - 0 * 0 + 3) + (2 * 3 * 0 + 0) * (2 * 3 * 0 + 0)
      norm_num
    exact mandelLoop_count_le_escape 16 3 0 1 3 0 15 h1

/-- Witness for the amended C6 at the concrete constant c = (3, 0). -/
theorem mandel_escape_for_large_c_witness :
    4 < (3:ℚ) * 3 + 0 * 0 ∧
      ((∃ M, 0 < M ∧ mandel M 16 3 0 3 0 < M) ∧ mandel 15 16 3 0 3 0 ≤ 1) :=
  ⟨by norm_num, mandel_escape_for_large_c 3 0 (by norm_num)⟩

end Mandel
